import Mathlib

/-!
# Verification of the Catawiki trust-and-safety analysis core

Shallow embedding of `src/catawiki_analysis.py` (pandas/numpy pipeline).

Modelling conventions:
* A pandas float cell that is NaN is represented as `none : Option ℚ`; a defined
  float value is `some q`.  The cancellation-rate columns are produced by
  `cancelled / (paid + cancelled)`, which is NaN exactly when the denominator is
  zero (both counts are non-negative, so a zero denominator forces a zero
  numerator, hence `0/0 = NaN`, never `inf`).  Rates are exact rationals; the
  decision thresholds `0.5` and `0.25` are exactly representable and the claims
  under study concern order/precedence logic, not float rounding.
* IEEE comparisons where one side is NaN are false; `optGt` below encodes the
  pandas `>` on a possibly-NaN cell.
* Row order of a DataFrame is the order of the record list; the DataFrame index
  (`row.name`) is the position in that list.
* `df.sort_values(col, ascending=False)` is pandas `nargsort` (reverse the
  non-NaN part, argsort ascending, reverse back, NaNs appended at the end)
  where `argsort` with the default `kind='quicksort'` is numpy's scalar
  introsort (`npysort` quicksort with `SMALL_QUICKSORT = 15`, median-of-3
  partition, depth-limited heapsort fallback).  That algorithm is transcribed
  below (`introOuter` and friends).
-/

/-- One input row of the CSV.  Field names follow the CSV columns used by the
script: `user_id`, `Cookie Session ID`, `Lots Paid by buyer (count)`,
`Lots cancelled by buyer (count)`, `Lots sold by seller (count)`,
`Lots cancelled by seller (count)`.  Counts are validated non-negative
integers per the spec's ingestion boundary. -/
structure UserRecord where
  user_id : String
  session_id : String
  lots_paid_by_buyer : ℕ
  lots_cancelled_by_buyer : ℕ
  lots_sold_by_seller : ℕ
  lots_cancelled_by_seller : ℕ
deriving DecidableEq, Inhabited

/-- A row after `load_and_process_data` added the four derived columns.
`buyer_cancellation_rate` / `seller_cancellation_rate` are `none` when the
pandas cell is NaN. -/
structure ScoredRecord extends UserRecord where
  buyer_cancellation_rate : Option ℚ
  seller_cancellation_rate : Option ℚ
  is_linked : Bool
  risk_category : String
deriving DecidableEq, Inhabited

/-- `df['Lots cancelled by buyer (count)'] / (df['Lots Paid by buyer (count)']
+ df['Lots cancelled by buyer (count)'])`: NaN (`none`) exactly when the
denominator is zero, otherwise the exact quotient. -/
def rateOf (cancelled paid : ℕ) : Option ℚ :=
  if paid + cancelled = 0 then none else some ((cancelled : ℚ) / ((paid : ℚ) + (cancelled : ℚ)))

/-- The pandas comparison `x > t` on a float cell `x` that may be NaN:
a NaN cell compares false against every threshold. -/
def optGt (x : Option ℚ) (t : ℚ) : Bool :=
  match x with
  | none => false
  | some v => decide (t < v)

/-- `categorize_risk(row)` from the script: linked rows are `'High Risk'`;
otherwise either rate above `0.5` gives `'High Risk'`; otherwise either rate
above `0.25` gives `'Medium Risk'`; otherwise `'Low Risk'`.  `linked` is
`row.name in linked_accounts.index`. -/
def categorize_risk (linked : Bool) (br sr : Option ℚ) : String :=
  if linked then "High Risk"
  else if optGt br (1/2) || optGt sr (1/2) then "High Risk"
  else if optGt br (1/4) || optGt sr (1/4) then "Medium Risk"
  else "Low Risk"

/-- Size of the `groupby('Cookie Session ID')` group of session `s`:
the number of rows of `rs` carrying that session id. -/
def sessionCount (rs : List UserRecord) (s : String) : ℕ :=
  rs.countP (fun r => r.session_id = s)

/-- Score one row given the whole input (linkage is a whole-dataset property:
the row is in `linked_accounts.index` iff its session group has size `> 1`). -/
def scoreRecord (rs : List UserRecord) (r : UserRecord) : ScoredRecord :=
  let br := rateOf r.lots_cancelled_by_buyer r.lots_paid_by_buyer
  let sr := rateOf r.lots_cancelled_by_seller r.lots_sold_by_seller
  let linked := decide (1 < sessionCount rs r.session_id)
  { r with
    buyer_cancellation_rate := br
    seller_cancellation_rate := sr
    is_linked := linked
    risk_category := categorize_risk linked br sr }

/-- `load_and_process_data` minus the CSV read (file I/O is a peripheral
collaborator per the spec).  Returns the scored frame `df` together with the
`linked_accounts` frame (`groupby('Cookie Session ID').filter(lambda x:
len(x) > 1)`, i.e. the rows whose session group has size `> 1`, in original
row order). -/
def load_and_process_data (rs : List UserRecord) : List ScoredRecord × List ScoredRecord :=
  let df := rs.map (scoreRecord rs)
  (df, df.filter (fun r => r.is_linked))

/-- `Series.value_counts().to_dict()`: each occurring value mapped to its
number of occurrences.  pandas orders the dict by descending count; only the
key set and the counts are used by the claims under study, so the entries are
listed here in order of first occurrence. -/
def value_counts (l : List String) : List (String × ℕ) :=
  l.dedup.map (fun t => (t, l.count t))

/-- Lookup in a `value_counts` dictionary (a missing key has no entry). -/
def dictLookup (d : List (String × ℕ)) (k : String) : Option ℕ :=
  (d.find? (fun p => p.1 = k)).map (fun p => p.2)

/-- `Series.nunique()`: number of distinct (non-null) values. -/
def nuniqueStr (l : List String) : ℕ :=
  l.dedup.length

/-- `Series.mean()` with the default `skipna=True`: the arithmetic mean of the
non-NaN cells, and NaN (`none`) when every cell is NaN or the series is
empty. -/
def seriesMean (l : List (Option ℚ)) : Option ℚ :=
  let v := l.filterMap id
  if v.length = 0 then none else some (v.sum / (v.length : ℚ))

/-! ## numpy scalar introsort (`npysort` quicksort), argsort variant

`tosort` is the list of indices being permuted.  The C code compares the
immutable key array through the stored indices (`v[*pi] < vp` etc.); here the
whole algorithm is parameterized by that comparison, `ltb a b =` "the key of
index `a` is strictly below the key of index `b`".  Where the C code saves a
pivot *value* (`vp = v[*pm]`), this model saves the pivot *index* and keeps
comparing through `ltb`, which is the same comparison because keys never
change during the sort.  `nargsortDesc` instantiates `ltb` with the rational
comparison on the buyer-rate keys.  Positions use `List.getD`/`List.set`
(out-of-range accesses do not occur on the executions the theorems are
about). -/

/-- Swap the entries at positions `i` and `j`. -/
def swapAt (t : List ℕ) (i j : ℕ) : List ℕ :=
  (t.set i (t.getD j 0)).set j (t.getD i 0)

/-- `do ++pi; while (v[*pi] < vp)`; `e` is the pivot's index. -/
def scanUp (ltb : ℕ → ℕ → Bool) (t : List ℕ) (e : ℕ) : ℕ → ℕ → ℕ
  | 0, pi => pi + 1
  | fuel + 1, pi =>
    let pi' := pi + 1
    if ltb (t.getD pi' 0) e then scanUp ltb t e fuel pi' else pi'

/-- `do --pj; while (vp < v[*pj])`; `e` is the pivot's index. -/
def scanDown (ltb : ℕ → ℕ → Bool) (t : List ℕ) (e : ℕ) : ℕ → ℕ → ℕ
  | 0, pj => pj - 1
  | fuel + 1, pj =>
    let pj' := pj - 1
    if ltb e (t.getD pj' 0) then scanDown ltb t e fuel pj' else pj'

/-- The partition exchange loop: scan up, scan down, swap while `pi < pj`.
Returns the array and the final `pi`. -/
def partLoop (ltb : ℕ → ℕ → Bool) (e : ℕ) : ℕ → List ℕ → ℕ → ℕ → List ℕ × ℕ
  | 0, t, pi, _ => (t, pi)
  | fuel + 1, t, pi, pj =>
    let pi' := scanUp ltb t e (t.length + 2) pi
    let pj' := scanDown ltb t e (t.length + 2) pj
    if pi' ≥ pj' then (t, pi')
    else partLoop ltb e fuel (swapAt t pi' pj') pi' pj'

/-- One quicksort partition of the segment `[pl, pr]`: median-of-3 pivot
selection, pivot parked at `pr - 1`, exchange loop, pivot swapped into its
final position `pi`.  Returns the array and `pi`. -/
def partitionStep (ltb : ℕ → ℕ → Bool) (t : List ℕ) (pl pr : ℕ) : List ℕ × ℕ :=
  let pm := pl + (pr - pl) / 2
  let t := if ltb (t.getD pm 0) (t.getD pl 0) then swapAt t pm pl else t
  let t := if ltb (t.getD pr 0) (t.getD pm 0) then swapAt t pr pm else t
  let t := if ltb (t.getD pm 0) (t.getD pl 0) then swapAt t pm pl else t
  let e := t.getD pm 0
  let t := swapAt t pm (pr - 1)
  let (t, pi) := partLoop ltb e (t.length + 2) t pl (pr - 1)
  (swapAt t pi (pr - 1), pi)

/-- The numpy insertion step: the new index `x` is shifted left past exactly
the already-placed indices whose key is strictly greater than its own
(`while (pj > pl && vp < v[*pk])`), i.e. it lands after every tie. -/
def insertFromRight (ltb : ℕ → ℕ → Bool) (x : ℕ) (ys : List ℕ) : List ℕ :=
  let s := ys.reverse.span (fun y => ltb x y)
  s.2.reverse ++ x :: s.1.reverse

/-- The insertion sort phase run on a whole segment, as a left fold of
`insertFromRight` (the C code grows the sorted block `[pl, pi)` in place). -/
def insertionPhase (ltb : ℕ → ℕ → Bool) (l : List ℕ) : List ℕ :=
  l.foldl (fun acc x => insertFromRight ltb x acc) []

/-- Splice: run the insertion phase on the segment `[pl, pr]` of `t` in
place. -/
def spliceInsertion (ltb : ℕ → ℕ → Bool) (t : List ℕ) (pl pr : ℕ) : List ℕ :=
  t.take pl ++ insertionPhase ltb ((t.drop pl).take (pr + 1 - pl)) ++ t.drop (pr + 1)

/-- One sift-down of numpy `aheapsort` (1-based heap `a`); `tmp` is the index
being placed, starting hole at `i`, child at `j`. -/
def siftDown (ltb : ℕ → ℕ → Bool) (n : ℕ) (tmp : ℕ) : ℕ → List ℕ → ℕ → ℕ → List ℕ
  | 0, a, i, _ => a.set (i - 1) tmp
  | fuel + 1, a, i, j =>
    if j ≤ n then
      let j := if j < n ∧ ltb (a.getD (j - 1) 0) (a.getD j 0) then j + 1 else j
      if ltb tmp (a.getD (j - 1) 0) then
        siftDown ltb n tmp fuel (a.set (i - 1) (a.getD (j - 1) 0)) j (j + j)
      else a.set (i - 1) tmp
    else a.set (i - 1) tmp

/-- Heapify loop of `aheapsort`: `for (l = n >> 1; l > 0; --l)`. -/
def heapify (ltb : ℕ → ℕ → Bool) (n : ℕ) : ℕ → List ℕ → List ℕ
  | 0, a => a
  | l + 1, a =>
    let l1 := l + 1
    let a := siftDown ltb n (a.getD (l1 - 1) 0) (a.length + 2) a l1 (l1 * 2)
    heapify ltb n l a

/-- Extraction loop of `aheapsort`: `for (; n > 1;)`. -/
def heapExtract (ltb : ℕ → ℕ → Bool) : ℕ → List ℕ → List ℕ
  | 0, a => a
  | n + 1, a =>
    if n + 1 > 1 then
      let tmp := a.getD n 0
      let a := a.set n (a.getD 0 0)
      let a := siftDown ltb n tmp (a.length + 2) a 1 2
      heapExtract ltb n a
    else a

/-- numpy `aheapsort` on the segment `[pl, pr]` of `t` (the depth-limit
fallback of introsort; unreachable on the executions the theorems below are
about, transcribed for completeness). -/
def heapsortSeg (ltb : ℕ → ℕ → Bool) (t : List ℕ) (pl pr : ℕ) : List ℕ :=
  let seg := (t.drop pl).take (pr + 1 - pl)
  let n := seg.length
  let seg := heapExtract ltb n (heapify ltb n (n / 2) seg)
  t.take pl ++ seg ++ t.drop (pr + 1)

/-- The inner `while ((pr - pl) > SMALL_QUICKSORT)` loop of introsort:
partition, push the larger side (with the decremented depth budget), continue
on the smaller.  Returns the state `(t, pl, pr, cdepth, stack)` at loop
exit. -/
def introWhile (ltb : ℕ → ℕ → Bool) :
    ℕ → List ℕ → ℕ → ℕ → ℤ → List (ℕ × ℕ × ℤ) → List ℕ × ℕ × ℕ × ℤ × List (ℕ × ℕ × ℤ)
  | 0, t, pl, pr, cdepth, stack => (t, pl, pr, cdepth, stack)
  | fuel + 1, t, pl, pr, cdepth, stack =>
    if 15 < pr - pl then
      let (t', pi) := partitionStep ltb t pl pr
      let cdepth' := cdepth - 1
      if pi - pl < pr - pi then
        introWhile ltb fuel t' pl (pi - 1) cdepth' ((pi + 1, pr, cdepth') :: stack)
      else
        introWhile ltb fuel t' (pi + 1) pr cdepth' ((pl, pi - 1, cdepth') :: stack)
    else (t, pl, pr, cdepth, stack)

/-- The outer `for (;;)` loop of introsort: heapsort the segment when the
depth budget is exhausted, otherwise run the partition loop then insertion
sort the remaining small segment; pop the next segment or stop. -/
def introOuter (ltb : ℕ → ℕ → Bool) :
    ℕ → List ℕ → ℕ → ℕ → ℤ → List (ℕ × ℕ × ℤ) → List ℕ
  | 0, t, _, _, _, _ => t
  | fuel + 1, t, pl, pr, cdepth, stack =>
    if cdepth < 0 then
      let t' := heapsortSeg ltb t pl pr
      match stack with
      | [] => t'
      | (pl', pr', d') :: s => introOuter ltb fuel t' pl' pr' d' s
    else
      match introWhile ltb (fuel + 1) t pl pr cdepth stack with
      | (t', pl', pr', _, stack') =>
        let t'' := spliceInsertion ltb t' pl' pr'
        match stack' with
        | [] => t''
        | (pl2, pr2, d2) :: s => introOuter ltb fuel t'' pl2 pr2 d2 s

/-- The halving loop of `npy_get_msb` (`while (unum >>= 1) depth_limit++`),
with fuel. -/
def npyGetMsbGo : ℕ → ℕ → ℕ
  | 0, _ => 0
  | fuel + 1, n => if n / 2 = 0 then 0 else npyGetMsbGo fuel (n / 2) + 1

/-- `npy_get_msb`: index of the most significant set bit. -/
def npyGetMsb (n : ℕ) : ℕ := npyGetMsbGo n n

/-- numpy `aquicksort` (scalar introsort, the default `kind='quicksort'`
argsort): sorts the index list `t` ascending by the keys compared through
`ltb`. -/
def npyAquicksort (ltb : ℕ → ℕ → Bool) (t : List ℕ) : List ℕ :=
  introOuter ltb (t.length + 2) t 0 (t.length - 1) (npyGetMsb t.length * 2 : ℕ) []

/-- The comparison numpy receives for the top-10 sort: keys are the (non-NaN)
rate values `w`, indices compare through their keys. -/
def ratLtb (w : List ℚ) : ℕ → ℕ → Bool :=
  fun a b => decide (w.getD a 0 < w.getD b 0)

/-- pandas `nargsort(vals, ascending=False, na_position='last')`: reverse the
non-NaN values and their indices, argsort ascending with numpy quicksort, map
back through the reversed indices, reverse, and append the NaN positions in
original order. -/
def nargsortDesc (vals : List (Option ℚ)) : List ℕ :=
  let idx := List.range vals.length
  let nonNanIdx := idx.filter (fun i => (vals.getD i none).isSome)
  let nanIdx := idx.filter (fun i => (vals.getD i none).isNone)
  let rIdx := nonNanIdx.reverse
  let rVals := (nonNanIdx.map (fun i => (vals.getD i none).getD 0)).reverse
  let q := npyAquicksort (ratLtb rVals) (List.range rVals.length)
  (q.map (fun i => rIdx.getD i 0)).reverse ++ nanIdx

/-- `nargsortDesc` with the comparison that numpy effectively receives when
every defined key is one and the same value: every `<` test answers `false`
(`nargsort_eq_ties` below proves the two agree in that case). -/
def nargsortTies (vals : List (Option ℚ)) : List ℕ :=
  let idx := List.range vals.length
  let nonNanIdx := idx.filter (fun i => (vals.getD i none).isSome)
  let nanIdx := idx.filter (fun i => (vals.getD i none).isNone)
  let rIdx := nonNanIdx.reverse
  let rVals := (nonNanIdx.map (fun i => (vals.getD i none).getD 0)).reverse
  let q := npyAquicksort (fun _ _ => false) (List.range rVals.length)
  (q.map (fun i => rIdx.getD i 0)).reverse ++ nanIdx

/-- `df[df['risk_category'] == 'High Risk'].sort_values(
'buyer_cancellation_rate', ascending=False)`: the High-risk rows reordered by
the `nargsort` indexer on the buyer-rate column.  (The script then selects
display columns; whole records are kept here, the selected columns are all
fields.) -/
def sortHighRisk (df : List ScoredRecord) : List ScoredRecord :=
  let hs := df.filter (fun r => r.risk_category = "High Risk")
  (nargsortDesc (hs.map (fun r => r.buyer_cancellation_rate))).map (fun i => hs.getD i default)

/-- The `analysis` dictionary produced by `analyze_data`. -/
structure Analysis where
  risk_segmentation : List (String × ℕ)
  linked_accounts : ℕ
  avg_buyer_cancellation_rate : Option ℚ
  avg_seller_cancellation_rate : Option ℚ
  both_activities : ℕ
  only_buyers : ℕ
  only_sellers : ℕ
  top_10_high_risk : List ScoredRecord
deriving DecidableEq

/-- `analyze_data(df, linked_accounts)` from the script. -/
def analyze_data (df linked_accounts : List ScoredRecord) : Analysis where
  risk_segmentation := value_counts (df.map (fun r => r.risk_category))
  linked_accounts := nuniqueStr (linked_accounts.map (fun r => r.user_id))
  avg_buyer_cancellation_rate := seriesMean (df.map (fun r => r.buyer_cancellation_rate))
  avg_seller_cancellation_rate := seriesMean (df.map (fun r => r.seller_cancellation_rate))
  both_activities :=
    (df.filter (fun r => 0 < r.lots_paid_by_buyer ∧ 0 < r.lots_sold_by_seller)).length
  only_buyers :=
    (df.filter (fun r => 0 < r.lots_paid_by_buyer ∧ r.lots_sold_by_seller = 0)).length
  only_sellers :=
    (df.filter (fun r => r.lots_paid_by_buyer = 0 ∧ 0 < r.lots_sold_by_seller)).length
  top_10_high_risk := (sortHighRisk df).take 10

/-- The whole pipeline on an in-memory record list:
`analyze_data(*load_and_process_data(...))`. -/
def runAnalysis (rs : List UserRecord) : Analysis :=
  let p := load_and_process_data rs
  analyze_data p.1 p.2

/-! ## Spec-side notions and concrete inputs -/

/-- Spec-side: a *defined* rate exceeds the threshold `t`; an undefined rate
(`none`, the NaN cell) exceeds no threshold. -/
def definedExceeds (x : Option ℚ) (t : ℚ) : Prop :=
  ∃ v, x = some v ∧ t < v

/-- Spec-side ordering of buyer-rate cells in the top-10 list: descending on
defined rates, with undefined rates (`none`) after every defined rate. -/
def descLE : Option ℚ → Option ℚ → Prop
  | _, none => True
  | none, some _ => False
  | some a, some b => b ≤ a

/-- Number of High-risk rows whose buyer rate is defined: this is the length
of the array that numpy quicksort actually receives for the top-10 sort. -/
def definedHighCount (rs : List UserRecord) : ℕ :=
  (((load_and_process_data rs).1.filter
      (fun r => r.risk_category = "High Risk")).countP
    (fun r => r.buyer_cancellation_rate.isSome))

/-- The content of claim C2 at input `rs` (amended: see `c2_top10_amended`):
the sorted High-risk list consists exactly of the High-risk rows, its
buyer-rate column is descending with undefined rates last, rows with equal
buyer rate keep their relative input order, and the top-10 list is its
10-element prefix. -/
def Top10Spec (rs : List UserRecord) : Prop :=
  (runAnalysis rs).top_10_high_risk = (sortHighRisk (load_and_process_data rs).1).take 10 ∧
  (sortHighRisk (load_and_process_data rs).1).Perm
    ((load_and_process_data rs).1.filter (fun r => r.risk_category = "High Risk")) ∧
  ((sortHighRisk (load_and_process_data rs).1).map
      (fun r => r.buyer_cancellation_rate)).Pairwise descLE ∧
  ∀ c : Option ℚ,
    (sortHighRisk (load_and_process_data rs).1).filter
        (fun r => r.buyer_cancellation_rate = c)
      = ((load_and_process_data rs).1.filter
          (fun r => r.risk_category = "High Risk")).filter
          (fun r => r.buyer_cancellation_rate = c)

/-- The invariant claimed by C9 for a scored row `r`: each rate is `none`
exactly when its denominator is zero, and a defined rate is the exact
quotient, lying in `[0, 1]`; the undefined state is the distinguished
constructor `none`, never the number `0`. -/
def RateInvariant (r : ScoredRecord) : Prop :=
  (r.buyer_cancellation_rate = none ↔
      r.lots_paid_by_buyer + r.lots_cancelled_by_buyer = 0) ∧
  (∀ q, r.buyer_cancellation_rate = some q →
      0 ≤ q ∧ q ≤ 1 ∧
      q = (r.lots_cancelled_by_buyer : ℚ)
            / ((r.lots_paid_by_buyer : ℚ) + (r.lots_cancelled_by_buyer : ℚ))) ∧
  (r.seller_cancellation_rate = none ↔
      r.lots_sold_by_seller + r.lots_cancelled_by_seller = 0) ∧
  (∀ q, r.seller_cancellation_rate = some q →
      0 ≤ q ∧ q ≤ 1 ∧
      q = (r.lots_cancelled_by_seller : ℚ)
            / ((r.lots_sold_by_seller : ℚ) + (r.lots_cancelled_by_seller : ℚ)))

/-- The content of claim C5 at input `rs`, row `i`: the row is linked iff
some other row of the same input shares its session id. -/
def LinkedIff (rs : List UserRecord) (i : ℕ) : Prop :=
  ((load_and_process_data rs).1.getD i default).is_linked = true ↔
    ∃ j, j < rs.length ∧ j ≠ i ∧
      (rs.getD j default).session_id = (rs.getD i default).session_id

/-- Seventeen users sharing one session (all linked, hence all High risk),
each with `paid = 1, cancelled = 0`, so every buyer rate is the defined value
`0`: seventeen-fold tie on the sort key. -/
def ex17 : List UserRecord :=
  ["a", "b", "c", "d", "e", "f", "g", "h", "i",
   "j", "k", "l", "m", "n", "o", "p", "q"].map
    (fun u => { user_id := u, session_id := "s", lots_paid_by_buyer := 1,
                lots_cancelled_by_buyer := 0, lots_sold_by_seller := 0,
                lots_cancelled_by_seller := 0 })

/-- The spec's three-record scenario (§8.7): `r1` and `r2` share session `S1`
(both linked, High risk), `r3` has buyer rate `1/5` (Low risk). -/
def ex3 : List UserRecord :=
  [{ user_id := "r1", session_id := "S1", lots_paid_by_buyer := 10,
     lots_cancelled_by_buyer := 6, lots_sold_by_seller := 0,
     lots_cancelled_by_seller := 0 },
   { user_id := "r2", session_id := "S1", lots_paid_by_buyer := 0,
     lots_cancelled_by_buyer := 0, lots_sold_by_seller := 5,
     lots_cancelled_by_seller := 0 },
   { user_id := "r3", session_id := "S2", lots_paid_by_buyer := 4,
     lots_cancelled_by_buyer := 1, lots_sold_by_seller := 0,
     lots_cancelled_by_seller := 0 }]

/-- A single record with no buyer activity at all: its buyer cancellation
rate is undefined. -/
def exNoBuyer : List UserRecord :=
  [{ user_id := "u", session_id := "t", lots_paid_by_buyer := 0,
     lots_cancelled_by_buyer := 0, lots_sold_by_seller := 5,
     lots_cancelled_by_seller := 0 }]

/-- Two all-zero records sharing a session: both rates undefined on both
sides, both rows linked, hence both High risk. -/
def exZero : List UserRecord :=
  [{ user_id := "v1", session_id := "z", lots_paid_by_buyer := 0,
     lots_cancelled_by_buyer := 0, lots_sold_by_seller := 0,
     lots_cancelled_by_seller := 0 },
   { user_id := "v2", session_id := "z", lots_paid_by_buyer := 0,
     lots_cancelled_by_buyer := 0, lots_sold_by_seller := 0,
     lots_cancelled_by_seller := 0 }]

/-! ## Helper lemmas -/

/-- `getD` through `map`, for an in-range index. -/
theorem getD_map_eq {α β : Type} (f : α → β) (l : List α) (i : ℕ) (d : α) (d' : β)
    (h : i < l.length) : (l.map f).getD i d' = f (l.getD i d) := by
  induction l generalizing i with
  | nil => simp at h
  | cons a t ih =>
    cases i with
    | zero => rfl
    | succ n => simpa using ih n (by simpa using h)

/-- Reading a list back off `range` by positions. -/
theorem map_getD_range {α : Type} (l : List α) (d : α) :
    (List.range l.length).map (fun i => l.getD i d) = l := by
  induction l with
  | nil => rfl
  | cons a t ih =>
    rw [List.length_cons, List.range_succ_eq_map, List.map_cons, List.map_map]
    have h2 : ((fun i => (a :: t).getD i d) ∘ Nat.succ) = fun i => t.getD i d :=
      funext fun i => rfl
    rw [h2, ih]
    rfl

/-- `countP` as the number of positions whose entry satisfies the
predicate. -/
theorem countP_positional {α : Type} (p : α → Bool) (l : List α) (d : α) :
    l.countP p = ((List.range l.length).filter (fun i => p (l.getD i d))).length := by
  induction l with
  | nil => rfl
  | cons a t ih =>
    have h2 : ((fun i => p ((a :: t).getD i d)) ∘ Nat.succ) = fun i => p (t.getD i d) :=
      funext fun i => rfl
    rw [List.countP_cons, List.length_cons, List.range_succ_eq_map, List.filter_cons,
      List.filter_map, h2, List.getD_cons_zero]
    by_cases hpa : p a = true
    · simp [hpa, ih]
    · simp [hpa, ih]

/-- `optGt` agrees with the spec-side `definedExceeds`. -/
theorem optGt_iff (x : Option ℚ) (t : ℚ) : optGt x t = true ↔ definedExceeds x t := by
  cases x with
  | none => simp [optGt, definedExceeds]
  | some v => simp [optGt, definedExceeds]

/-! ## Claim theorems -/

/-- C1: `risk_tier` follows the stated precedence with first match winning:
linked rows are High; otherwise a defined rate above `0.5` gives High;
otherwise a defined rate above `0.25` gives Medium; otherwise Low.  An
undefined rate fails every threshold test: a linked row with both rates `0.0`
is High, and an undefined rate classifies exactly like the harmless defined
rate `0.0`, so it never produces High or Medium on its own. -/
theorem c1_risk_tier_precedence (linked : Bool) (br sr : Option ℚ) :
    (linked = true → categorize_risk linked br sr = "High Risk") ∧
    (linked = false → (definedExceeds br (1/2) ∨ definedExceeds sr (1/2)) →
        categorize_risk linked br sr = "High Risk") ∧
    (linked = false → ¬(definedExceeds br (1/2) ∨ definedExceeds sr (1/2)) →
        (definedExceeds br (1/4) ∨ definedExceeds sr (1/4)) →
        categorize_risk linked br sr = "Medium Risk") ∧
    (linked = false → ¬(definedExceeds br (1/2) ∨ definedExceeds sr (1/2)) →
        ¬(definedExceeds br (1/4) ∨ definedExceeds sr (1/4)) →
        categorize_risk linked br sr = "Low Risk") ∧
    categorize_risk true (some 0) (some 0) = "High Risk" ∧
    categorize_risk linked none sr = categorize_risk linked (some 0) sr ∧
    categorize_risk linked br none = categorize_risk linked br (some 0) := by
  have orTrue : ∀ a b : Bool, a = true ∨ b = true → (a || b) = true := by
    intro a b h
    rcases h with h | h
    · rw [h, Bool.true_or]
    · rw [h, Bool.or_true]
  have orFalse : ∀ {q : ℚ} {x y : Option ℚ},
      ¬(definedExceeds x q ∨ definedExceeds y q) → (optGt x q || optGt y q) = false := by
    intro q x y hn
    cases hb : optGt x q with
    | true => exact absurd (Or.inl ((optGt_iff _ _).1 hb)) hn
    | false =>
      cases hs : optGt y q with
      | true => exact absurd (Or.inr ((optGt_iff _ _).1 hs)) hn
      | false => rfl
  have ha2 : optGt (some (0 : ℚ)) (1/2) = false := by
    rw [optGt, decide_eq_false_iff_not, not_lt]
    norm_num
  have ha4 : optGt (some (0 : ℚ)) (1/4) = false := by
    rw [optGt, decide_eq_false_iff_not, not_lt]
    norm_num
  refine ⟨?_, ?_, ?_, ?_, ?_, ?_, ?_⟩
  · intro hl
    unfold categorize_risk
    rw [hl, if_pos rfl]
  · intro hl hex
    have h : (optGt br (1/2) || optGt sr (1/2)) = true :=
      orTrue _ _ (hex.imp (fun h => (optGt_iff _ _).2 h) (fun h => (optGt_iff _ _).2 h))
    unfold categorize_risk
    rw [hl, if_neg Bool.false_ne_true, h, if_pos rfl]
  · intro hl hnex hex
    have h25 : (optGt br (1/4) || optGt sr (1/4)) = true :=
      orTrue _ _ (hex.imp (fun h => (optGt_iff _ _).2 h) (fun h => (optGt_iff _ _).2 h))
    unfold categorize_risk
    rw [hl, if_neg Bool.false_ne_true, orFalse hnex, if_neg Bool.false_ne_true,
      h25, if_pos rfl]
  · intro hl hnex5 hnex25
    unfold categorize_risk
    rw [hl, if_neg Bool.false_ne_true, orFalse hnex5, if_neg Bool.false_ne_true,
      orFalse hnex25, if_neg Bool.false_ne_true]
  · rfl
  · unfold categorize_risk
    rw [show optGt (none : Option ℚ) (1/2) = false from rfl,
      show optGt (none : Option ℚ) (1/4) = false from rfl, ha2, ha4]
  · unfold categorize_risk
    rw [show optGt (none : Option ℚ) (1/2) = false from rfl,
      show optGt (none : Option ℚ) (1/4) = false from rfl, ha2, ha4]

/-- Witness for C1 at a concrete input: an unlinked row whose defined buyer
rate `3/4` exceeds `0.5` is High risk. -/
theorem c1_witness : categorize_risk false (some (3/4)) none = "High Risk" :=
  (c1_risk_tier_precedence false (some (3/4)) none).2.1 rfl
    (Or.inl ⟨3/4, rfl, by norm_num⟩)

/-- C3: each mean cancellation rate is the arithmetic mean over exactly the
records where that rate is defined, and it is the explicit `none` (not `0`,
not a bare number) when no record has that rate defined. -/
theorem c3_mean_rates (rs : List UserRecord) :
    ((runAnalysis rs).avg_buyer_cancellation_rate =
      if ((load_and_process_data rs).1.filterMap
            (fun r => r.buyer_cancellation_rate)).length = 0 then none
      else some (((load_and_process_data rs).1.filterMap
              (fun r => r.buyer_cancellation_rate)).sum
          / (((load_and_process_data rs).1.filterMap
              (fun r => r.buyer_cancellation_rate)).length : ℚ))) ∧
    ((∀ r ∈ (load_and_process_data rs).1, r.buyer_cancellation_rate = none) →
      (runAnalysis rs).avg_buyer_cancellation_rate = none) ∧
    ((runAnalysis rs).avg_seller_cancellation_rate =
      if ((load_and_process_data rs).1.filterMap
            (fun r => r.seller_cancellation_rate)).length = 0 then none
      else some (((load_and_process_data rs).1.filterMap
              (fun r => r.seller_cancellation_rate)).sum
          / (((load_and_process_data rs).1.filterMap
              (fun r => r.seller_cancellation_rate)).length : ℚ))) ∧
    ((∀ r ∈ (load_and_process_data rs).1, r.seller_cancellation_rate = none) →
      (runAnalysis rs).avg_seller_cancellation_rate = none) := by
  have key : ∀ f : ScoredRecord → Option ℚ, ∀ l : List ScoredRecord,
      seriesMean (l.map f) =
        if (l.filterMap f).length = 0 then none
        else some ((l.filterMap f).sum / ((l.filterMap f).length : ℚ)) := by
    intro f l
    have : (l.map f).filterMap id = l.filterMap f := by
      rw [List.filterMap_map]
      rfl
    rw [seriesMean, this]
  have hnil : ∀ f : ScoredRecord → Option ℚ, ∀ l : List ScoredRecord,
      (∀ r ∈ l, f r = none) → (l.filterMap f).length = 0 := by
    intro f l h
    rw [List.length_eq_zero, List.filterMap_eq_nil_iff]
    exact fun r hr => h r hr
  refine ⟨key _ _, ?_, key _ _, ?_⟩
  · intro h
    rw [show (runAnalysis rs).avg_buyer_cancellation_rate
        = seriesMean ((load_and_process_data rs).1.map
            (fun r => r.buyer_cancellation_rate)) from rfl, key, if_pos (hnil _ _ h)]
  · intro h
    rw [show (runAnalysis rs).avg_seller_cancellation_rate
        = seriesMean ((load_and_process_data rs).1.map
            (fun r => r.seller_cancellation_rate)) from rfl, key, if_pos (hnil _ _ h)]

/-- Witness for C3 at a concrete input: the single record of `exNoBuyer` has
no buyer activity, so the mean buyer rate is explicitly undefined. -/
theorem c3_witness :
    (∀ r ∈ (load_and_process_data exNoBuyer).1, r.buyer_cancellation_rate = none) ∧
    (runAnalysis exNoBuyer).avg_buyer_cancellation_rate = none :=
  ⟨by decide, (c3_mean_rates exNoBuyer).2.1 (by decide)⟩

/-- C4: on an empty input the Aggregator returns a Summary with every count
zero (the tier-count dictionary is empty, so every tier lookup is absent),
both means explicitly undefined, and an empty top-10 list — no fault. -/
theorem c4_empty_input :
    runAnalysis [] =
      { risk_segmentation := []
        linked_accounts := 0
        avg_buyer_cancellation_rate := none
        avg_seller_cancellation_rate := none
        both_activities := 0
        only_buyers := 0
        only_sellers := 0
        top_10_high_risk := [] } ∧
    ∀ t, dictLookup (runAnalysis []).risk_segmentation t = none := by
  exact ⟨rfl, fun t => rfl⟩

/-- C6: the Summary's linked-account count is the number of *distinct* user
identities among the linked rows (a user identity occurring in several linked
rows counts once). -/
theorem c6_linked_distinct_users (rs : List UserRecord) :
    (runAnalysis rs).linked_accounts =
      (((load_and_process_data rs).1.filter (fun r => r.is_linked)).map
          (fun r => r.user_id)).toFinset.card := by
  rw [List.card_toFinset]
  rfl

/-- C7: the activity buckets partition the records:
`both + buyerOnly + sellerOnly + neither` equals the total record count,
where `neither` counts rows with `paid = 0` and `sold = 0`. -/
theorem c7_activity_partition (rs : List UserRecord) :
    (runAnalysis rs).both_activities + (runAnalysis rs).only_buyers
      + (runAnalysis rs).only_sellers
      + ((load_and_process_data rs).1.filter
          (fun r => r.lots_paid_by_buyer = 0 ∧ r.lots_sold_by_seller = 0)).length
      = rs.length := by
  have part : ∀ l : List ScoredRecord,
      (l.filter (fun r => 0 < r.lots_paid_by_buyer ∧ 0 < r.lots_sold_by_seller)).length
        + (l.filter (fun r => 0 < r.lots_paid_by_buyer ∧ r.lots_sold_by_seller = 0)).length
        + (l.filter (fun r => r.lots_paid_by_buyer = 0 ∧ 0 < r.lots_sold_by_seller)).length
        + (l.filter (fun r => r.lots_paid_by_buyer = 0 ∧ r.lots_sold_by_seller = 0)).length
        = l.length := by
    intro l
    induction l with
    | nil => rfl
    | cons a t ih =>
      simp only [List.filter_cons, decide_eq_true_eq]
      split_ifs <;> simp only [List.length_cons] <;> omega
  have hlen : (load_and_process_data rs).1.length = rs.length := by
    rw [show (load_and_process_data rs).1 = rs.map (scoreRecord rs) from rfl,
      List.length_map]
  rw [show (runAnalysis rs).both_activities
      = ((load_and_process_data rs).1.filter
          (fun r => 0 < r.lots_paid_by_buyer ∧ 0 < r.lots_sold_by_seller)).length from rfl,
    show (runAnalysis rs).only_buyers
      = ((load_and_process_data rs).1.filter
          (fun r => 0 < r.lots_paid_by_buyer ∧ r.lots_sold_by_seller = 0)).length from rfl,
    show (runAnalysis rs).only_sellers
      = ((load_and_process_data rs).1.filter
          (fun r => r.lots_paid_by_buyer = 0 ∧ 0 < r.lots_sold_by_seller)).length from rfl,
    part, hlen]

/-- C8: the Rate & Risk Engine returns exactly one scored record per input
record: the scored frame has the input's length, and the row at each position
carries the identifiers of the input record at that position. -/
theorem c8_one_to_one (rs : List UserRecord) :
    (load_and_process_data rs).1.length = rs.length ∧
    ∀ i, i < rs.length →
      ((load_and_process_data rs).1.getD i default).user_id = (rs.getD i default).user_id ∧
      ((load_and_process_data rs).1.getD i default).session_id
        = (rs.getD i default).session_id := by
  constructor
  · rw [show (load_and_process_data rs).1 = rs.map (scoreRecord rs) from rfl,
      List.length_map]
  · intro i hi
    rw [show (load_and_process_data rs).1 = rs.map (scoreRecord rs) from rfl,
      getD_map_eq (scoreRecord rs) rs i default default hi]
    exact ⟨rfl, rfl⟩

/-- Witness for C8 at a concrete input: position `0` of `ex3`. -/
theorem c8_witness :
    (0 < ex3.length) ∧
    ((load_and_process_data ex3).1.getD 0 default).user_id = (ex3.getD 0 default).user_id ∧
    ((load_and_process_data ex3).1.getD 0 default).session_id
      = (ex3.getD 0 default).session_id :=
  ⟨by decide, (c8_one_to_one ex3).2 0 (by decide)⟩

/-- C9: for every scored record, each rate is `none` exactly when that side's
denominator `paid + cancelled` is zero, and a defined rate is the exact value
`cancelled / (paid + cancelled)`, lying in `[0, 1]`; undefinedness is the
distinguished constructor `none`, not the number zero. -/
theorem c9_rate_bounds (rs : List UserRecord) (r : ScoredRecord)
    (h : r ∈ (load_and_process_data rs).1) : RateInvariant r := by
  rw [show (load_and_process_data rs).1 = rs.map (scoreRecord rs) from rfl] at h
  rcases List.mem_map.1 h with ⟨r0, _, rfl⟩
  have main : ∀ c p : ℕ, (rateOf c p = none ↔ p + c = 0) ∧
      (∀ q, rateOf c p = some q →
        0 ≤ q ∧ q ≤ 1 ∧ q = (c : ℚ) / ((p : ℚ) + (c : ℚ))) := by
    intro c p
    by_cases hz : p + c = 0
    · rw [rateOf, if_pos hz]
      exact ⟨⟨fun _ => hz, fun _ => rfl⟩, fun q hq => Option.noConfusion hq⟩
    · rw [rateOf, if_neg hz]
      refine ⟨⟨fun hh => Option.noConfusion hh, fun hh => absurd hh hz⟩, ?_⟩
      intro q hq
      have hq' : q = (c : ℚ) / ((p : ℚ) + (c : ℚ)) := by
        injection hq with hq2
        exact hq2.symm
      have hden : (0 : ℚ) < (p : ℚ) + (c : ℚ) := by
        exact_mod_cast Nat.pos_of_ne_zero hz
      refine ⟨?_, ?_, hq'⟩
      · rw [hq']
        exact div_nonneg (by positivity) hden.le
      · rw [hq']
        exact (div_le_one hden).2 (le_add_of_nonneg_left (by positivity))
  unfold RateInvariant
  exact ⟨(main r0.lots_cancelled_by_buyer r0.lots_paid_by_buyer).1,
    (main r0.lots_cancelled_by_buyer r0.lots_paid_by_buyer).2,
    (main r0.lots_cancelled_by_seller r0.lots_sold_by_seller).1,
    (main r0.lots_cancelled_by_seller r0.lots_sold_by_seller).2⟩

/-- Witness for C9 at a concrete input: the first scored record of `ex3`. -/
theorem c9_witness : RateInvariant (scoreRecord ex3 (ex3.getD 0 default)) := by
  apply c9_rate_bounds ex3
  show scoreRecord ex3 (ex3.getD 0 default) ∈ ex3.map (scoreRecord ex3)
  exact List.mem_map.2 ⟨ex3.getD 0 default, by decide, rfl⟩

/-- C10: a tier appears in the Summary's tier-count dictionary iff some
scored record carries it (a tier with zero records is absent, not present
with count `0`); every present count is positive. -/
theorem c10_tier_counts_present (rs : List UserRecord) (t : String) :
    ((∃ c, (t, c) ∈ (runAnalysis rs).risk_segmentation) ↔
      ∃ r, r ∈ (load_and_process_data rs).1 ∧ r.risk_category = t) ∧
    (∀ c, (t, c) ∈ (runAnalysis rs).risk_segmentation → 0 < c) := by
  have hseg : (runAnalysis rs).risk_segmentation
      = ((load_and_process_data rs).1.map (fun r => r.risk_category)).dedup.map
          (fun a => (a, ((load_and_process_data rs).1.map
            (fun r => r.risk_category)).count a)) := rfl
  set l := (load_and_process_data rs).1.map (fun r => r.risk_category) with hldef
  have hpair : ∀ c, (t, c) ∈ (runAnalysis rs).risk_segmentation →
      t ∈ l ∧ c = l.count t := by
    intro c hc
    rw [hseg] at hc
    rcases List.mem_map.1 hc with ⟨a, ha, hae⟩
    have h1 : a = t := congrArg Prod.fst hae
    have h2 : l.count a = c := congrArg Prod.snd hae
    subst h1
    exact ⟨List.mem_dedup.1 ha, h2.symm⟩
  constructor
  · constructor
    · rintro ⟨c, hc⟩
      exact List.mem_map.1 ((hpair c hc).1)
    · rintro ⟨r, hr, hrt⟩
      refine ⟨l.count t, ?_⟩
      rw [hseg]
      exact List.mem_map.2 ⟨t, List.mem_dedup.2 (List.mem_map.2 ⟨r, hr, hrt⟩), rfl⟩
  · intro c hc
    rcases hpair c hc with ⟨hmem, hcount⟩
    rw [hcount]
    exact List.count_pos_iff.2 hmem

/-- Witness for C10 at a concrete input: both rows of `exZero` are High
risk, and the theorem forces that dictionary entry's count to be positive. -/
theorem c10_witness :
    (("High Risk", 2) ∈ (runAnalysis exZero).risk_segmentation) ∧ (0 : ℕ) < 2 :=
  ⟨by decide, (c10_tier_counts_present exZero "High Risk").2 2 (by decide)⟩

/-- C5: a record is linked iff at least one other record (another position)
of the same input shares its session id; a session occurring exactly once is
not linked. -/
theorem c5_is_linked_iff (rs : List UserRecord) (i : ℕ) (h : i < rs.length) :
    LinkedIff rs i := by
  unfold LinkedIff
  rw [show (load_and_process_data rs).1 = rs.map (scoreRecord rs) from rfl,
    getD_map_eq (scoreRecord rs) rs i default default h]
  rw [show (scoreRecord rs (rs.getD i default)).is_linked
      = decide (1 < sessionCount rs (rs.getD i default).session_id) from rfl,
    decide_eq_true_eq]
  set s := (rs.getD i default).session_id with hsdef
  rw [show sessionCount rs s = rs.countP (fun r => decide (r.session_id = s)) from rfl,
    countP_positional (fun r => decide (r.session_id = s)) rs default]
  set S := (List.range rs.length).filter
    (fun j => decide ((rs.getD j default).session_id = s)) with hSdef
  have hiS : i ∈ S := by
    rw [hSdef, List.mem_filter]
    exact ⟨List.mem_range.2 h, decide_eq_true rfl⟩
  have hnd : S.Nodup := (List.nodup_range _).filter _
  have hlenS : (S.erase i).length = S.length - 1 := List.length_erase_of_mem hiS
  have hSpos : 0 < S.length := List.length_pos_of_mem hiS
  constructor
  · intro hlt
    have hpos : 0 < (S.erase i).length := by omega
    rcases List.exists_mem_of_length_pos hpos with ⟨j, hj⟩
    rcases (List.Nodup.mem_erase_iff hnd).1 hj with ⟨hne, hjS⟩
    rw [hSdef, List.mem_filter, List.mem_range] at hjS
    exact ⟨j, hjS.1, hne, of_decide_eq_true hjS.2⟩
  · rintro ⟨j, hj, hne, hsess⟩
    have hjS : j ∈ S := by
      rw [hSdef, List.mem_filter]
      exact ⟨List.mem_range.2 hj, decide_eq_true hsess⟩
    have hjE : j ∈ S.erase i := (List.Nodup.mem_erase_iff hnd).2 ⟨hne, hjS⟩
    have := List.length_pos_of_mem hjE
    omega

/-- Witness for C5 at a concrete input: row `0` of `ex3` (session `S1`,
shared with row `1`). -/
theorem c5_witness : LinkedIff ex3 0 := c5_is_linked_iff ex3 0 (by decide)

/-- Every position of an all-zero key list reads `0`. -/
theorem getD_all_zero (w : List ℚ) (h : ∀ x ∈ w, x = 0) (i : ℕ) : w.getD i 0 = 0 := by
  rcases Nat.lt_or_ge i w.length with hlt | hge
  · rw [List.getD_eq_getElem w 0 hlt]
    exact h _ (List.getElem_mem hlt)
  · exact List.getD_eq_default w 0 hge

/-- On an all-equal key list, the numpy comparison is constantly `false`. -/
theorem ratLtb_const (w : List ℚ) (h : ∀ x ∈ w, x = 0) :
    ratLtb w = fun _ _ => false := by
  funext a b
  show decide (w.getD a 0 < w.getD b 0) = false
  rw [getD_all_zero w h a, getD_all_zero w h b]
  exact decide_eq_false (lt_irrefl 0)

/-- When every defined cell holds the same value, the quicksort indexer
equals its constant-comparison specialization. -/
theorem nargsort_eq_ties (vals : List (Option ℚ))
    (h : ∀ x ∈ vals, ∀ q, x = some q → q = 0) :
    nargsortDesc vals = nargsortTies vals := by
  have hww : ∀ x ∈ (((List.range vals.length).filter
      (fun i => (vals.getD i none).isSome)).map
        (fun i => (vals.getD i none).getD 0)).reverse, x = (0 : ℚ) := by
    intro x hx
    rw [List.mem_reverse] at hx
    rcases List.mem_map.1 hx with ⟨i, hi, rfl⟩
    rcases List.mem_filter.1 hi with ⟨hir, hsome⟩
    rcases Option.isSome_iff_exists.1 hsome with ⟨q, hq⟩
    have hmem : vals.getD i none ∈ vals := by
      have hlt : i < vals.length := List.mem_range.1 hir
      rw [List.getD_eq_getElem vals none hlt]
      exact List.getElem_mem hlt
    rw [hq]
    exact h _ (hq ▸ hmem) q rfl
  rw [nargsortDesc, nargsortTies, ratLtb_const _ hww]

/-- C2 fails on the code as stated: the sort uses `sort_values` with numpy's
default unstable quicksort, and ties *are* re-ordered.  In `ex17` all 17
records are High risk (linked) with identical defined buyer rate `0`; the
record `"b"` precedes `"j"` in the input (positions 1 and 9), yet the top-10
list comes out `a, j, p, o, n, m, l, k, i, b`: the tie `j`/`b` is flipped,
refuting the stable-sort sentence of the claim. -/
theorem c2_counterexample :
    ((load_and_process_data ex17).1.all (fun r => r.risk_category == "High Risk")) = true ∧
    ((load_and_process_data ex17).1.getD 1 default).user_id = "b" ∧
    ((load_and_process_data ex17).1.getD 9 default).user_id = "j" ∧
    ((load_and_process_data ex17).1.getD 1 default).buyer_cancellation_rate
      = ((load_and_process_data ex17).1.getD 9 default).buyer_cancellation_rate ∧
    ((runAnalysis ex17).top_10_high_risk.map (fun r => r.user_id))
      = ["a", "j", "p", "o", "n", "m", "l", "k", "i", "b"] := by
  have hall : ∀ r0 ∈ ex17,
      r0.lots_cancelled_by_buyer = 0 ∧ r0.lots_paid_by_buyer = 1 := by decide
  have hz : ∀ x ∈ (((load_and_process_data ex17).1.filter
      (fun r => r.risk_category = "High Risk")).map
        (fun r => r.buyer_cancellation_rate)), ∀ q, x = some q → q = 0 := by
    intro x hx q hq
    rcases List.mem_map.1 hx with ⟨r, hr, rfl⟩
    have hr2 : r ∈ (load_and_process_data ex17).1 := (List.mem_filter.1 hr).1
    rcases List.mem_map.1 hr2 with ⟨r0, hr0, rfl⟩
    have hc := hall r0 hr0
    have hx2 : (scoreRecord ex17 r0).buyer_cancellation_rate
        = rateOf r0.lots_cancelled_by_buyer r0.lots_paid_by_buyer := rfl
    rw [hx2, hc.1, hc.2, rateOf] at hq
    norm_num at hq
    exact hq.symm
  have e2 : sortHighRisk (load_and_process_data ex17).1
      = ((nargsortDesc (((load_and_process_data ex17).1.filter
          (fun r => r.risk_category = "High Risk")).map
            (fun r => r.buyer_cancellation_rate))).map
          (fun i => ((load_and_process_data ex17).1.filter
            (fun r => r.risk_category = "High Risk")).getD i default)) := rfl
  have hmap : ((runAnalysis ex17).top_10_high_risk.map (fun r => r.user_id))
      = ["a", "j", "p", "o", "n", "m", "l", "k", "i", "b"] := by
    show (((sortHighRisk (load_and_process_data ex17).1).take 10).map
        (fun r => r.user_id)) = _
    rw [e2, nargsort_eq_ties _ hz]
    decide
  exact ⟨by decide, by decide, by decide, rfl, hmap⟩

/-! ## Properties of the insertion-sort path (the stable regime) -/

/-- `dropWhile` is empty or starts with an element failing the predicate. -/
theorem dropWhile_head_false {α : Type} (p : α → Bool) (l : List α) :
    List.dropWhile p l = [] ∨
      ∃ b tl, List.dropWhile p l = b :: tl ∧ p b = false := by
  induction l with
  | nil => exact Or.inl rfl
  | cons a t ih =>
    by_cases hpa : p a = true
    · rw [List.dropWhile_cons_of_pos hpa]
      exact ih
    · rw [List.dropWhile_cons_of_neg hpa]
      exact Or.inr ⟨a, t, rfl, Bool.not_eq_true _ ▸ hpa⟩

/-- The insertion step, written through `takeWhile`/`dropWhile`. -/
theorem insertFromRight_eq (ltb : ℕ → ℕ → Bool) (x : ℕ) (ys : List ℕ) :
    insertFromRight ltb x ys
      = (ys.reverse.dropWhile (fun y => ltb x y)).reverse
        ++ x :: (ys.reverse.takeWhile (fun y => ltb x y)).reverse := by
  simp only [insertFromRight, List.span_eq_take_drop]

/-- Any list splits as reversed-dropWhile ++ reversed-takeWhile of its
reverse. -/
theorem self_eq_drop_take {α : Type} (p : α → Bool) (ys : List α) :
    ys = (ys.reverse.dropWhile p).reverse ++ (ys.reverse.takeWhile p).reverse := by
  have h : ys.reverse.takeWhile p ++ ys.reverse.dropWhile p = ys.reverse :=
    List.takeWhile_append_dropWhile p ys.reverse
  calc ys = ys.reverse.reverse := (List.reverse_reverse ys).symm
    _ = (ys.reverse.takeWhile p ++ ys.reverse.dropWhile p).reverse := by rw [h]
    _ = (ys.reverse.dropWhile p).reverse ++ (ys.reverse.takeWhile p).reverse := by
        rw [List.reverse_append]

/-- The insertion step permutes: it inserts `x` and keeps the rest. -/
theorem insertFromRight_perm (ltb : ℕ → ℕ → Bool) (x : ℕ) (ys : List ℕ) :
    (insertFromRight ltb x ys).Perm (x :: ys) := by
  rw [insertFromRight_eq]
  refine List.perm_middle.trans ?_
  exact List.Perm.cons x (by rw [← self_eq_drop_take])

/-- The insertion step keeps the accumulator sorted by the keys. -/
theorem insertFromRight_sorted (v : ℕ → ℚ) (x : ℕ) (ys : List ℕ)
    (hs : ys.Pairwise (fun a b => v a ≤ v b)) :
    (insertFromRight (fun a b => decide (v a < v b)) x ys).Pairwise
      (fun a b => v a ≤ v b) := by
  rw [insertFromRight_eq]
  have hrev : ys.reverse.Pairwise (fun a b => v b ≤ v a) := by
    rw [List.pairwise_reverse]
    exact hs
  have hPair : ((ys.reverse.takeWhile (fun y => decide (v x < v y)))
      ++ (ys.reverse.dropWhile (fun y => decide (v x < v y)))).Pairwise
        (fun a b => v b ≤ v a) := by
    rw [List.takeWhile_append_dropWhile]
    exact hrev
  rw [List.pairwise_append] at hPair
  obtain ⟨hA, hB, _⟩ := hPair
  have hAgt : ∀ a ∈ ys.reverse.takeWhile (fun y => decide (v x < v y)), v x < v a := by
    intro a ha
    have h2 := List.mem_takeWhile_imp ha
    exact of_decide_eq_true h2
  have hBle : ∀ b ∈ ys.reverse.dropWhile (fun y => decide (v x < v y)), v b ≤ v x := by
    rcases dropWhile_head_false (fun y => decide (v x < v y)) ys.reverse with
      h0 | ⟨b0, tl, hBe, hb0⟩
    · rw [h0]
      intro b hb
      exact absurd hb (List.not_mem_nil b)
    · rw [hBe]
      rw [hBe] at hB
      have hb0le : v b0 ≤ v x := le_of_not_lt (of_decide_eq_false hb0)
      intro b hb
      rcases List.mem_cons.1 hb with rfl | hbtl
      · exact hb0le
      · exact le_trans ((List.pairwise_cons.1 hB).1 b hbtl) hb0le
  rw [List.pairwise_append]
  refine ⟨?_, ?_, ?_⟩
  · rw [List.pairwise_reverse]
    exact hB
  · rw [List.pairwise_cons]
    constructor
    · intro a ha
      rw [List.mem_reverse] at ha
      exact (hAgt a ha).le
    · rw [List.pairwise_reverse]
      exact hA
  · intro b hb z hz
    rw [List.mem_reverse] at hb
    rcases List.mem_cons.1 hz with rfl | hzA
    · exact hBle b hb
    · rw [List.mem_reverse] at hzA
      exact le_trans (hBle b hb) (hAgt _ hzA).le

/-- Stability of the insertion step: the sub-list of any fixed key value
gains `x` at the end when `x` has that value, and is untouched otherwise. -/
theorem insertFromRight_filter (v : ℕ → ℚ) (c : ℚ) (x : ℕ) (ys : List ℕ) :
    (insertFromRight (fun a b => decide (v a < v b)) x ys).filter
        (fun a => decide (v a = c))
      = ys.filter (fun a => decide (v a = c))
        ++ if v x = c then [x] else [] := by
  rw [insertFromRight_eq, List.filter_append, List.filter_cons]
  by_cases hc : v x = c
  · have hA : (ys.reverse.takeWhile (fun y => decide (v x < v y))).reverse.filter
        (fun a => decide (v a = c)) = [] := by
      rw [List.filter_eq_nil_iff]
      intro a ha
      rw [List.mem_reverse] at ha
      have h2 := List.mem_takeWhile_imp ha
      have hlt : v x < v a := of_decide_eq_true h2
      intro hac
      have hac2 : v a = c := of_decide_eq_true hac
      rw [hc] at hlt
      rw [hac2] at hlt
      exact lt_irrefl c hlt
    have hys : ys.filter (fun a => decide (v a = c))
        = ((ys.reverse.dropWhile (fun y => decide (v x < v y))).reverse).filter
            (fun a => decide (v a = c)) := by
      conv_lhs => rw [self_eq_drop_take (fun y => decide (v x < v y)) ys]
      rw [List.filter_append, hA, List.append_nil]
    rw [hA, decide_eq_true hc, if_pos rfl, if_pos hc, hys]
  · have hd : decide (v x = c) = false := decide_eq_false hc
    rw [hd, if_neg Bool.false_ne_true, if_neg hc, List.append_nil]
    conv_rhs => rw [self_eq_drop_take (fun y => decide (v x < v y)) ys]
    rw [List.filter_append]

/-- The insertion fold: starting from a sorted accumulator, the result is
sorted, is a permutation of accumulator-then-input, and concatenates the
per-key sub-lists (stability). -/
theorem insertionFold_props (v : ℕ → ℚ) (l : List ℕ) :
    ∀ acc, acc.Pairwise (fun a b => v a ≤ v b) →
      ((l.foldl (fun acc x =>
          insertFromRight (fun a b => decide (v a < v b)) x acc) acc).Pairwise
            (fun a b => v a ≤ v b)
        ∧ (l.foldl (fun acc x =>
            insertFromRight (fun a b => decide (v a < v b)) x acc) acc).Perm (acc ++ l)
        ∧ ∀ c : ℚ, (l.foldl (fun acc x =>
            insertFromRight (fun a b => decide (v a < v b)) x acc) acc).filter
              (fun a => decide (v a = c))
            = acc.filter (fun a => decide (v a = c)) ++ l.filter (fun a => decide (v a = c))) := by
  induction l with
  | nil =>
    intro acc hacc
    refine ⟨hacc, by simp, fun c => by simp⟩
  | cons x tl ih =>
    intro acc hacc
    have hsort := insertFromRight_sorted v x acc hacc
    obtain ⟨hs, hp, hf⟩ := ih _ hsort
    refine ⟨hs, ?_, ?_⟩
    · refine hp.trans ?_
      have h1 : (insertFromRight (fun a b => decide (v a < v b)) x acc ++ tl).Perm
          ((x :: acc) ++ tl) :=
        (insertFromRight_perm _ x acc).append_right tl
      refine h1.trans ?_
      rw [List.cons_append]
      exact List.perm_middle.symm
    · intro c
      rw [List.foldl_cons, hf c, insertFromRight_filter, List.filter_cons]
      by_cases hc : v x = c
      · rw [if_pos hc, decide_eq_true hc, if_pos rfl, List.append_assoc]
        rfl
      · rw [if_neg hc, decide_eq_false hc, if_neg Bool.false_ne_true, List.append_nil]

/-- `insertionPhase` sorts ascending, permutes its input, and is stable,
for any comparison that agrees with a strict key comparison. -/
theorem insertionPhase_props (ltb : ℕ → ℕ → Bool) (v : ℕ → ℚ)
    (hltb : ∀ a b, ltb a b = decide (v a < v b)) (l : List ℕ) :
    ((insertionPhase ltb l).Pairwise (fun a b => v a ≤ v b)
      ∧ (insertionPhase ltb l).Perm l
      ∧ ∀ c : ℚ, (insertionPhase ltb l).filter (fun a => decide (v a = c))
          = l.filter (fun a => decide (v a = c))) := by
  have he : ltb = fun a b => decide (v a < v b) := funext fun a => funext fun b => hltb a b
  subst he
  obtain ⟨hs, hp, hf⟩ := insertionFold_props v l [] List.Pairwise.nil
  exact ⟨hs, by simpa using hp, fun c => by simpa using hf c⟩

/-- With a non-negative depth budget and a small segment, one pass of the
outer introsort loop is exactly the insertion splice. -/
theorem introOuter_small (ltb : ℕ → ℕ → Bool) (fuel : ℕ) (t : List ℕ) (pr : ℕ)
    (cdepth : ℤ) (hd : ¬ cdepth < 0) (hsmall : ¬ 15 < pr) :
    introOuter ltb (fuel + 1) t 0 pr cdepth [] = spliceInsertion ltb t 0 pr := by
  have hw : introWhile ltb (fuel + 1) t 0 pr cdepth [] = (t, 0, pr, cdepth, []) := by
    rw [introWhile]
    rw [if_neg (by simpa using hsmall)]
  rw [introOuter, if_neg hd, hw]

/-- On at most 16 elements the introsort never partitions: it is exactly the
(stable) insertion sort. -/
theorem npyAquicksort_small (ltb : ℕ → ℕ → Bool) (t : List ℕ) (h : t.length ≤ 16) :
    npyAquicksort ltb t = insertionPhase ltb t := by
  have e : npyAquicksort ltb t
      = introOuter ltb (t.length + 1 + 1) t 0 (t.length - 1)
          ((npyGetMsb t.length * 2 : ℕ) : ℤ) [] := rfl
  rw [e, introOuter_small]
  · rw [spliceInsertion]
    cases t with
    | nil => rfl
    | cons a tl =>
      have h1 : (a :: tl).length - 1 + 1 - 0 = (a :: tl).length := by
        simp
      rw [h1, List.take_zero, List.drop_zero, List.take_length]
      have h2 : (a :: tl).length - 1 + 1 = (a :: tl).length := by
        simp
      rw [h2, List.drop_length, List.nil_append, List.append_nil]
  · simp only [not_lt]
    exact Int.ofNat_nonneg _
  · omega

/-- A list is pairwise related when every pair of members is. -/
theorem pairwise_of_forall {α : Type} {r : α → α → Prop} :
    ∀ l : List α, (∀ a ∈ l, ∀ b ∈ l, r a b) → l.Pairwise r
  | [], _ => List.Pairwise.nil
  | a :: t, h =>
    List.Pairwise.cons
      (fun b hb => h a (List.mem_cons_self a t) b (List.mem_cons_of_mem a hb))
      (pairwise_of_forall t
        (fun x hx y hy => h x (List.mem_cons_of_mem a hx) y (List.mem_cons_of_mem a hy)))

/-- Characterization of the descending indexer pipeline in the stable regime
(at most 16 defined keys, so the sort is the insertion path): the output
permutes non-NaN-then-NaN positions, its cells descend with `none` last, and
each key class keeps its order. -/
theorem descPipeline_props (NN NA : List ℕ) (val : ℕ → Option ℚ) (g : ℕ → ℚ)
    (out : List ℕ)
    (hout : out = ((npyAquicksort (ratLtb ((NN.map g).reverse))
        (List.range ((NN.map g).reverse).length)).map
          (fun j => NN.reverse.getD j 0)).reverse ++ NA)
    (hval : ∀ i ∈ NN, val i = some (g i))
    (hNA : ∀ i ∈ NA, val i = none)
    (hk : NN.length ≤ 16) :
    out.Perm (NN ++ NA)
    ∧ (out.map val).Pairwise descLE
    ∧ ∀ c : Option ℚ, out.filter (fun i => decide (val i = c))
        = (NN ++ NA).filter (fun i => decide (val i = c)) := by
  subst hout
  have hsmall : (List.range ((NN.map g).reverse).length).length ≤ 16 := by
    rw [List.length_range, List.length_reverse, List.length_map]
    exact hk
  rw [npyAquicksort_small _ _ hsmall]
  obtain ⟨hqs, hqp, hqf⟩ := insertionPhase_props (ratLtb ((NN.map g).reverse))
    (fun j => ((NN.map g).reverse).getD j 0) (fun a b => rfl)
    (List.range ((NN.map g).reverse).length)
  have hqmem : ∀ j ∈ insertionPhase (ratLtb ((NN.map g).reverse))
      (List.range ((NN.map g).reverse).length), j < ((NN.map g).reverse).length := by
    intro j hj
    have := (hqp.mem_iff).1 hj
    exact List.mem_range.1 this
  have hrevlen : ∀ a : ℕ, a < ((NN.map g).reverse).length → a < NN.reverse.length := by
    intro a ha
    rw [List.length_reverse] at ha ⊢
    rw [List.length_map] at ha
    exact ha
  have hkey : ∀ a, a < ((NN.map g).reverse).length →
      val (NN.reverse.getD a 0) = some (((NN.map g).reverse).getD a 0) := by
    intro a ha
    have ha2 := hrevlen a ha
    have hmem : NN.reverse.getD a 0 ∈ NN := by
      rw [← List.mem_reverse, List.getD_eq_getElem _ _ ha2]
      exact List.getElem_mem ha2
    have hgv : ((NN.map g).reverse).getD a 0 = g (NN.reverse.getD a 0) := by
      rw [← List.map_reverse]
      exact getD_map_eq g NN.reverse a 0 0 ha2
    rw [hgv]
    exact hval _ hmem
  have hmaprange : (List.range ((NN.map g).reverse).length).map
      (fun j => NN.reverse.getD j 0) = NN.reverse := by
    have h3 : ((NN.map g).reverse).length = NN.reverse.length := by
      rw [List.length_reverse, List.length_map, List.length_reverse]
    rw [h3, map_getD_range]
  refine ⟨?_, ?_, ?_⟩
  · refine List.Perm.append ?_ (List.Perm.refl NA)
    refine (List.reverse_perm _).trans ?_
    refine (hqp.map (fun j => NN.reverse.getD j 0)).trans ?_
    rw [hmaprange]
    exact NN.reverse_perm
  · rw [List.map_append, List.pairwise_append]
    refine ⟨?_, ?_, ?_⟩
    · rw [List.map_reverse, List.pairwise_reverse, List.map_map, List.pairwise_map]
      refine hqs.imp_of_mem ?_
      intro a b ha hb hle
      have hka := hkey a (hqmem a ha)
      have hkb := hkey b (hqmem b hb)
      show descLE ((val ∘ fun j => NN.reverse.getD j 0) b)
        ((val ∘ fun j => NN.reverse.getD j 0) a)
      show descLE (val (NN.reverse.getD b 0)) (val (NN.reverse.getD a 0))
      rw [hka, hkb]
      exact hle
    · refine pairwise_of_forall _ ?_
      intro x _ y hy
      rcases List.mem_map.1 hy with ⟨i, hiNA, rfl⟩
      rw [hNA i hiNA]
      cases x <;> trivial
    · intro x _ y hy
      rcases List.mem_map.1 hy with ⟨i, hiNA, rfl⟩
      rw [hNA i hiNA]
      cases x <;> trivial
  · intro c
    rw [List.filter_append, List.filter_append]
    cases c with
    | none =>
      have h1 : ((insertionPhase (ratLtb ((NN.map g).reverse))
          (List.range ((NN.map g).reverse).length)).map
            (fun j => NN.reverse.getD j 0)).reverse.filter
          (fun i => decide (val i = none)) = [] := by
        rw [List.filter_eq_nil_iff]
        intro i hi hdec
        rw [List.mem_reverse] at hi
        rcases List.mem_map.1 hi with ⟨j, hj, rfl⟩
        have hs := hkey j (hqmem j hj)
        have := of_decide_eq_true hdec
        rw [hs] at this
        exact Option.noConfusion this
      have h2 : NN.filter (fun i => decide (val i = none)) = [] := by
        rw [List.filter_eq_nil_iff]
        intro i hi hdec
        have := of_decide_eq_true hdec
        rw [hval i hi] at this
        exact Option.noConfusion this
      have h3 : NA.filter (fun i => decide (val i = none)) = NA := by
        rw [List.filter_eq_self]
        intro i hi
        exact decide_eq_true (hNA i hi)
      rw [h1, h2, h3]
    | some v0 =>
      have hNAnil : NA.filter (fun i => decide (val i = some v0)) = [] := by
        rw [List.filter_eq_nil_iff]
        intro i hi hdec
        have := of_decide_eq_true hdec
        rw [hNA i hi] at this
        exact Option.noConfusion this
      have hPQ : ∀ j, j < ((NN.map g).reverse).length →
          decide (val (NN.reverse.getD j 0) = some v0)
            = decide (((NN.map g).reverse).getD j 0 = v0) := by
        intro j hj
        rw [hkey j hj]
        refine decide_eq_decide.2 ?_
        exact ⟨fun h => Option.some.inj h, fun h => by rw [h]⟩
      have hchain : ∀ Z : List ℕ, (∀ j ∈ Z, j < ((NN.map g).reverse).length) →
          (Z.map (fun j => NN.reverse.getD j 0)).filter (fun i => decide (val i = some v0))
            = (Z.filter (fun j =>
                decide (((NN.map g).reverse).getD j 0 = v0))).map
              (fun j => NN.reverse.getD j 0) := by
        intro Z hZ
        rw [List.filter_map]
        congr 1
        apply List.filter_congr
        intro j hj
        show decide (val (NN.reverse.getD j 0) = some v0)
          = decide (((NN.map g).reverse).getD j 0 = v0)
        exact hPQ j (hZ j hj)
      have hL : ((insertionPhase (ratLtb ((NN.map g).reverse))
          (List.range ((NN.map g).reverse).length)).map
            (fun j => NN.reverse.getD j 0)).reverse.filter
          (fun i => decide (val i = some v0))
          = (((List.range ((NN.map g).reverse).length).filter (fun j =>
              decide (((NN.map g).reverse).getD j 0 = v0))).map
            (fun j => NN.reverse.getD j 0)).reverse := by
        rw [List.filter_reverse, hchain _ hqmem, hqf v0]
      have hR : NN.filter (fun i => decide (val i = some v0))
          = (((List.range ((NN.map g).reverse).length).filter (fun j =>
              decide (((NN.map g).reverse).getD j 0 = v0))).map
            (fun j => NN.reverse.getD j 0)).reverse := by
        have hNNrev : NN.filter (fun i => decide (val i = some v0))
            = (NN.reverse.filter (fun i => decide (val i = some v0))).reverse := by
          rw [List.filter_reverse, List.reverse_reverse]
        have hmid : NN.reverse.filter (fun i => decide (val i = some v0))
            = ((List.range ((NN.map g).reverse).length).filter (fun j =>
                decide (((NN.map g).reverse).getD j 0 = v0))).map
              (fun j => NN.reverse.getD j 0) := by
          conv_lhs => rw [← hmaprange]
          exact hchain _ (fun j hj => List.mem_range.1 hj)
        rw [hNNrev, hmid]
      rw [hL, hR, hNAnil]

/-- Characterization of `nargsortDesc` in the stable regime (at most 16
defined cells): a permutation of all positions, cells descending with `none`
last, and each cell class in original order. -/
theorem nargsortDesc_props (vals : List (Option ℚ))
    (hk : vals.countP (fun x => x.isSome) ≤ 16) :
    (nargsortDesc vals).Perm (List.range vals.length)
    ∧ ((nargsortDesc vals).map (fun i => vals.getD i none)).Pairwise descLE
    ∧ ∀ c : Option ℚ, (nargsortDesc vals).filter (fun i => decide (vals.getD i none = c))
        = (List.range vals.length).filter (fun i => decide (vals.getD i none = c)) := by
  have hNNlen : ((List.range vals.length).filter
      (fun i => (vals.getD i none).isSome)).length ≤ 16 := by
    have h2 : vals.countP (fun x => x.isSome)
        = ((List.range vals.length).filter
            (fun i => (vals.getD i none).isSome)).length :=
      countP_positional _ vals none
    rw [← h2]
    exact hk
  have hval : ∀ i ∈ (List.range vals.length).filter
      (fun i => (vals.getD i none).isSome),
      (fun i => vals.getD i none) i = some ((fun i => (vals.getD i none).getD 0) i) := by
    intro i hi
    have hsome := (List.mem_filter.1 hi).2
    show vals.getD i none = some ((vals.getD i none).getD 0)
    cases h : vals.getD i none with
    | none =>
      rw [h] at hsome
      exact absurd hsome (by simp)
    | some a => rfl
  have hNA : ∀ i ∈ (List.range vals.length).filter
      (fun i => (vals.getD i none).isNone),
      (fun i => vals.getD i none) i = none := by
    intro i hi
    have hnone := (List.mem_filter.1 hi).2
    simpa using hnone
  obtain ⟨hperm, hsort, hstab⟩ := descPipeline_props
    ((List.range vals.length).filter (fun i => (vals.getD i none).isSome))
    ((List.range vals.length).filter (fun i => (vals.getD i none).isNone))
    (fun i => vals.getD i none)
    (fun i => (vals.getD i none).getD 0)
    (nargsortDesc vals) rfl hval hNA hNNlen
  have hsplit : (((List.range vals.length).filter (fun i => (vals.getD i none).isSome))
      ++ ((List.range vals.length).filter (fun i => (vals.getD i none).isNone))).Perm
        (List.range vals.length) := by
    have hcong : (List.range vals.length).filter (fun i => (vals.getD i none).isNone)
        = (List.range vals.length).filter (fun i => !((vals.getD i none).isSome)) := by
      apply List.filter_congr
      intro i _
      cases vals.getD i none <;> rfl
    rw [hcong]
    exact List.filter_append_perm _ _
  refine ⟨hperm.trans hsplit, hsort, ?_⟩
  intro c
  rw [hstab c, List.filter_append]
  cases c with
  | some v0 =>
    have hNAnil : ((List.range vals.length).filter
        (fun i => (vals.getD i none).isNone)).filter
          (fun i => decide (vals.getD i none = some v0)) = [] := by
      rw [List.filter_eq_nil_iff]
      intro i hi hdec
      have hnone : vals.getD i none = none := by
        simpa using (List.mem_filter.1 hi).2
      have := of_decide_eq_true hdec
      rw [hnone] at this
      exact Option.noConfusion this
    rw [hNAnil, List.append_nil, List.filter_filter]
    apply List.filter_congr
    intro i _
    cases h : vals.getD i none with
    | none => simp
    | some a => simp
  | none =>
    have hNNnil : ((List.range vals.length).filter
        (fun i => (vals.getD i none).isSome)).filter
          (fun i => decide (vals.getD i none = none)) = [] := by
      rw [List.filter_eq_nil_iff]
      intro i hi hdec
      have hsome := (List.mem_filter.1 hi).2
      have := of_decide_eq_true hdec
      rw [this] at hsome
      exact absurd hsome (by simp)
    rw [hNNnil, List.nil_append, List.filter_filter]
    apply List.filter_congr
    intro i _
    cases h : vals.getD i none with
    | none => simp
    | some a => simp

/-- Lift of `nargsortDesc_props` to record lists: reordering any record list
by the indexer on its buyer-rate column permutes it, sorts the rate column
descending with undefined rates last, and keeps each rate class in input
order — provided at most 16 rates are defined. -/
theorem sortedHigh_lift (hs : List ScoredRecord)
    (hk : (hs.map (fun r => r.buyer_cancellation_rate)).countP
      (fun x => x.isSome) ≤ 16) :
    ((nargsortDesc (hs.map (fun r => r.buyer_cancellation_rate))).map
        (fun i => hs.getD i default)).Perm hs
    ∧ (((nargsortDesc (hs.map (fun r => r.buyer_cancellation_rate))).map
        (fun i => hs.getD i default)).map
          (fun r => r.buyer_cancellation_rate)).Pairwise descLE
    ∧ ∀ c : Option ℚ, ((nargsortDesc (hs.map (fun r => r.buyer_cancellation_rate))).map
        (fun i => hs.getD i default)).filter
          (fun r => decide (r.buyer_cancellation_rate = c))
        = hs.filter (fun r => decide (r.buyer_cancellation_rate = c)) := by
  obtain ⟨hperm, hsort, hstab⟩ := nargsortDesc_props _ hk
  have hlen : (hs.map (fun r => r.buyer_cancellation_rate)).length = hs.length :=
    List.length_map _ _
  have hmemlt : ∀ i ∈ nargsortDesc (hs.map (fun r => r.buyer_cancellation_rate)),
      i < hs.length := by
    intro i hi
    have h0 := (hperm.mem_iff).1 hi
    rw [List.mem_range, hlen] at h0
    exact h0
  have hgetD : ∀ i, i < hs.length →
      (hs.map (fun r => r.buyer_cancellation_rate)).getD i none
        = (hs.getD i default).buyer_cancellation_rate := by
    intro i hi
    exact getD_map_eq _ hs i default none hi
  have hrangemap : (List.range (hs.map (fun r => r.buyer_cancellation_rate)).length).map
      (fun i => hs.getD i default) = hs := by
    rw [hlen, map_getD_range]
  refine ⟨?_, ?_, ?_⟩
  · refine (hperm.map _).trans ?_
    rw [hrangemap]
  · rw [List.map_map]
    have hcongr : (nargsortDesc (hs.map (fun r => r.buyer_cancellation_rate))).map
        ((fun r => r.buyer_cancellation_rate) ∘ (fun i => hs.getD i default))
        = (nargsortDesc (hs.map (fun r => r.buyer_cancellation_rate))).map
          (fun i => (hs.map (fun r => r.buyer_cancellation_rate)).getD i none) := by
      apply List.map_congr_left
      intro i hi
      show (hs.getD i default).buyer_cancellation_rate = _
      rw [hgetD i (hmemlt i hi)]
    rw [hcongr]
    exact hsort
  · intro c
    rw [List.filter_map]
    have hcongr2 : (nargsortDesc (hs.map (fun r => r.buyer_cancellation_rate))).filter
        ((fun r => decide (r.buyer_cancellation_rate = c)) ∘ (fun i => hs.getD i default))
        = (nargsortDesc (hs.map (fun r => r.buyer_cancellation_rate))).filter
          (fun i => decide ((hs.map (fun r => r.buyer_cancellation_rate)).getD i none = c)) := by
      apply List.filter_congr
      intro i hi
      show decide ((hs.getD i default).buyer_cancellation_rate = c) = _
      rw [hgetD i (hmemlt i hi)]
    rw [hcongr2, hstab c]
    have hcongr3 : (List.range (hs.map (fun r => r.buyer_cancellation_rate)).length).filter
        (fun i => decide ((hs.map (fun r => r.buyer_cancellation_rate)).getD i none = c))
        = (List.range (hs.map (fun r => r.buyer_cancellation_rate)).length).filter
          ((fun r => decide (r.buyer_cancellation_rate = c)) ∘ (fun i => hs.getD i default)) := by
      apply List.filter_congr
      intro i hi
      rw [List.mem_range, hlen] at hi
      show _ = decide ((hs.getD i default).buyer_cancellation_rate = c)
      rw [hgetD i hi]
    rw [hcongr3, ← List.filter_map, hrangemap]

set_option maxHeartbeats 3200000 in
/-- C2, amended: whenever at most 16 High-risk records have a *defined*
buyer rate (so numpy's introsort stays on its insertion-sort path — the
counterexample `c2_counterexample` shows the claim fails beyond that), the
top-10 list is the 10-element prefix of a reordering of exactly the
High-risk records, sorted by descending buyer rate with undefined rates
last, and records with equal buyer rate keep their relative input order. -/
theorem c2_top10_amended (rs : List UserRecord) (hk : definedHighCount rs ≤ 16) :
    Top10Spec rs := by
  have hk2 : (((load_and_process_data rs).1.filter
      (fun r => r.risk_category = "High Risk")).map
        (fun r => r.buyer_cancellation_rate)).countP (fun x => x.isSome) ≤ 16 := by
    have h2 : (((load_and_process_data rs).1.filter
        (fun r => r.risk_category = "High Risk")).map
          (fun r => r.buyer_cancellation_rate)).countP (fun x => x.isSome)
        = definedHighCount rs := by
      rw [List.countP_map]
      have hfe : ((fun x : Option ℚ => x.isSome)
            ∘ (fun r : ScoredRecord => r.buyer_cancellation_rate))
          = fun r : ScoredRecord => r.buyer_cancellation_rate.isSome :=
        funext fun r => rfl
      rw [hfe]
      rfl
    rw [h2]
    exact hk
  obtain ⟨h1, h2, h3⟩ := sortedHigh_lift
    ((load_and_process_data rs).1.filter (fun r => r.risk_category = "High Risk")) hk2
  refine ⟨?_, ?_, ?_, ?_⟩
  · rfl
  · exact h1
  · exact h2
  · exact h3

/-- Witness for the amended C2 at a concrete input: `exZero` has two
High-risk records, both with undefined buyer rate (0 defined rates ≤ 16). -/
theorem c2_top10_amended_witness :
    definedHighCount exZero ≤ 16 ∧ Top10Spec exZero :=
  ⟨by decide, c2_top10_amended exZero (by decide)⟩
